import Mathlib

/-!
Shallow embedding of the partition storage engine of the repository
(`streaming/src/partitions/messages.rs`) together with the create-stream wire
handler (`server/src/handlers/create_stream_handler.rs`).

Machine integers are modelled as `Nat`; the one place where fixed-width
wrap-around matters (`count - 1` on a `u32` in `get_end_offset`) carries an
explicit `% 2^32`.  Fallible operations return `Except Error`.  Code of the
repository that is referenced but not part of the excerpt (the `Segment`
implementation, partition creation, the clock source, `System::create_stream`)
is modelled from the specification and marked as such in its doc comment.
-/

/-- Error kinds surfaced by the engine (spec section 7, `shared::error::Error`). -/
inductive Error where
  | InvalidCommand
  | InvalidOffset
  | InvalidStreamName
  | SegmentNotFound
  | SegmentClosed
  | IoFailure
  | Corrupt
  | NotFound
deriving DecidableEq

/-- A message record: `offset` and `timestamp` are assigned by the partition on
append, `id` is producer supplied, `payload` is the raw byte list. -/
structure Message where
  offset : Nat
  timestamp : Nat
  id : Nat
  payload : List Nat
deriving DecidableEq

/-- A time-index entry: `relative_offset: u32`, `timestamp: u64`. -/
structure TimeIndexEntry where
  relative_offset : Nat
  timestamp : Nat
deriving DecidableEq

/-- One segment of a partition.  `store` is the sequence of records readable
back from the segment (on-disk records plus the not-yet-persisted buffer,
which the read path includes transparently per spec section 4.1). -/
structure Segment where
  partition_id : Nat
  start_offset : Nat
  current_offset : Nat
  end_offset : Nat
  is_closed : Bool
  time_indexes : List TimeIndexEntry
  store : List Message
  current_size_bytes : Nat
  max_size_bytes : Nat
deriving DecidableEq

/-- Configuration options recognised by the engine (spec section 6). -/
structure Config where
  messages_required_to_save : Nat
  segment_size_bytes : Nat
  cache_capacity : Nat
deriving DecidableEq

/-- A stored consumer offset. -/
structure ConsumerOffset where
  offset : Nat
  timestamp : Nat
deriving DecidableEq

/-- Partition state: ordered segments (back is active), the hot ring cache
`messages`, consumer offsets, and the append bookkeeping fields. -/
structure Partition where
  id : Nat
  current_offset : Nat
  should_increment_offset : Bool
  segments : List Segment
  messages : List Message
  consumer_offsets : List (Nat × ConsumerOffset)
  unsaved_messages_count : Nat
  config : Config
deriving DecidableEq

/-- encoded length of a log record:
`offset:u64 | timestamp:u64 | id:u128 | payload_len:u32 | payload` (spec section 4.1). -/
def encodedLength (m : Message) : Nat :=
  8 + 8 + 16 + 4 + m.payload.length

/-- `Segment::is_full`: `current_size_bytes >= max_size_bytes`. -/
def Segment.is_full (s : Segment) : Bool :=
  decide (s.max_size_bytes ≤ s.current_size_bytes)

/-- Modelled from the spec: `Segment::create` (segment source not in the
excerpt) creates an empty segment: no indexes, no records,
`current_offset = start_offset - 1` conceptually ("empty"), not closed. -/
def Segment.create (partition_id start_offset size_bytes : Nat) : Segment :=
  { partition_id := partition_id
    start_offset := start_offset
    current_offset := start_offset - 1
    end_offset := 0
    is_closed := false
    time_indexes := []
    store := []
    current_size_bytes := 0
    max_size_bytes := size_bytes }

/-- Modelled from the spec: `Segment::append_message` (segment source not in
the excerpt) fails if closed, otherwise records the message, a time-index
entry, grows `current_size_bytes` and sets `current_offset = message.offset`. -/
def Segment.append_message (s : Segment) (m : Message) : Except Error Segment :=
  if s.is_closed then .error .SegmentClosed
  else .ok { s with
    store := s.store ++ [m]
    time_indexes := s.time_indexes ++ [⟨m.offset - s.start_offset, m.timestamp⟩]
    current_size_bytes := s.current_size_bytes + encodedLength m
    current_offset := m.offset }

/-- Modelled from the spec: `Segment::persist_messages` (segment source not in
the excerpt) flushes the buffer (no-op in this model, where `store` already
covers buffered records); if the segment is then full it is closed and
`end_offset = current_offset` is set. -/
def Segment.persist_messages (s : Segment) : Segment :=
  if s.is_full then { s with is_closed := true, end_offset := s.current_offset }
  else s

/-- Modelled from the spec: `Segment::get_messages` (segment source not in the
excerpt) returns the stored records whose absolute offsets lie in
`[start_offset, start_offset + count - 1] ∩ [self.start_offset, self.current_offset]`. -/
def Segment.get_messages (s : Segment) (start_offset count : Nat) : List Message :=
  s.store.filter (fun m =>
    decide (start_offset ≤ m.offset) && decide (m.offset + 1 ≤ start_offset + count) &&
    decide (s.start_offset ≤ m.offset) && decide (m.offset ≤ s.current_offset))

/-- 2^32, the wrap modulus of `u32` arithmetic. -/
def U32LIMIT : Nat := 4294967296

/-- `Partition::get_end_offset`: `offset + (count - 1)` (the subtraction is on a
`u32` and wraps modulo 2^32 for `count = 0`), clamped to the active (last)
segment's `current_offset`.  The source unwraps `segments.last()`; every caller
has already checked that `segments` is non-empty, so the `getD 0` default is
unreachable there. -/
def Partition.get_end_offset (p : Partition) (offset count : Nat) : Nat :=
  let end_offset := offset + (count + (U32LIMIT - 1)) % U32LIMIT
  let max_offset := ((p.segments.getLast?).map Segment.current_offset).getD 0
  min end_offset max_offset

/-- `Partition::load_messages_from_cache`: filter the ring cache by offset range. -/
def Partition.load_messages_from_cache (p : Partition) (start_offset end_offset : Nat) :
    List Message :=
  p.messages.filter (fun m => decide (start_offset ≤ m.offset) && decide (m.offset ≤ end_offset))

/-- `Partition::try_get_messages_from_cache`: `None` on an empty cache or when
`start_offset` lies before the first buffered offset; otherwise load from cache. -/
def Partition.try_get_messages_from_cache (p : Partition) (start_offset end_offset : Nat) :
    Option (List Message) :=
  match p.messages.head? with
  | none => none
  | some first =>
    if first.offset ≤ start_offset then
      some (p.load_messages_from_cache start_offset end_offset)
    else none

/-- The three-clause segment filter predicate of
`Partition::filter_segments_by_offsets`, exactly as in the source. -/
def segmentMatches (offset end_offset : Nat) (s : Segment) : Bool :=
  (decide (offset ≤ s.start_offset) && decide (s.current_offset ≤ end_offset))
  || (decide (s.start_offset ≤ offset) && decide (offset ≤ s.current_offset))
  || (decide (s.start_offset ≤ end_offset) && decide (end_offset ≤ s.current_offset))

/-- The overlap predicate the spec proposes as the equivalent simplification:
`segment.start_offset ≤ end_offset ∧ segment.current_offset ≥ start_offset`. -/
def segmentOverlaps (offset end_offset : Nat) (s : Segment) : Bool :=
  decide (s.start_offset ≤ end_offset) && decide (offset ≤ s.current_offset)

/-- `Partition::filter_segments_by_offsets`. -/
def Partition.filter_segments_by_offsets (p : Partition) (offset end_offset : Nat) :
    List Segment :=
  p.segments.filter (fun s => segmentMatches offset end_offset s)

/-- Concatenation of per-segment reads (`Partition::get_messages_from_segments`). -/
def concatSegmentReads (start_offset count : Nat) : List Segment → List Message
  | [] => []
  | s :: rest => s.get_messages start_offset count ++ concatSegmentReads start_offset count rest

/-- `Partition::get_messages_by_offset`. -/
def Partition.get_messages_by_offset (p : Partition) (start_offset count : Nat) :
    Except Error (List Message) :=
  if p.segments.isEmpty then .ok []
  else
    let end_offset := p.get_end_offset start_offset count
    match p.try_get_messages_from_cache start_offset end_offset with
    | some messages => .ok messages
    | none =>
      match p.filter_segments_by_offsets start_offset end_offset with
      | [] => .ok []
      | [segment] => .ok (segment.get_messages start_offset count)
      | segments => .ok (concatSegmentReads start_offset count segments)

/-- `Partition::get_first_messages`. -/
def Partition.get_first_messages (p : Partition) (count : Nat) : Except Error (List Message) :=
  p.get_messages_by_offset 0 count

/-- `Partition::get_last_messages`: clamp `count` to `current_offset + 1` and
start at `1 + current_offset - count`. -/
def Partition.get_last_messages (p : Partition) (count : Nat) : Except Error (List Message) :=
  let count2 := min count (p.current_offset + 1)
  p.get_messages_by_offset (1 + p.current_offset - count2) count2

/-- Association-list lookup of a consumer's stored offset
(the source uses a hash map keyed by consumer id). -/
def lookupConsumer : List (Nat × ConsumerOffset) → Nat → Option ConsumerOffset
  | [], _ => none
  | (k, v) :: rest, key => if k = key then some v else lookupConsumer rest key

/-- `Partition::get_next_messages`. -/
def Partition.get_next_messages (p : Partition) (consumer_id count : Nat) :
    Except Error (List Message) :=
  match lookupConsumer p.consumer_offsets consumer_id with
  | none => p.get_first_messages count
  | some co =>
    if co.offset = p.current_offset then .ok []
    else p.get_messages_by_offset co.offset count

/-- The per-segment timestamp scan of `Partition::get_messages_by_timestamp`:
skip segments with an empty time index or whose indexed timestamp range does
not contain `ts`; in the first containing segment take the first entry with
`entry.timestamp ≥ ts` (`unwrap_or(0)` in the source) and produce the absolute
offset `segment.start_offset + entry.relative_offset`.  (`head?` is `some` iff
`getLast?` is; the mixed wildcard cases are unreachable.) -/
def findStartOffsetByTimestamp (ts : Nat) : List Segment → Option Nat
  | [] => none
  | s :: rest =>
    match s.time_indexes.head?, s.time_indexes.getLast? with
    | some f, some l =>
      if ts < f.timestamp || l.timestamp < ts then findStartOffsetByTimestamp ts rest
      else
        some (s.start_offset +
          (((s.time_indexes.find? (fun ti => decide (ts ≤ ti.timestamp))).map
            TimeIndexEntry.relative_offset).getD 0))
    | _, _ => findStartOffsetByTimestamp ts rest

/-- `Partition::get_messages_by_timestamp`. -/
def Partition.get_messages_by_timestamp (p : Partition) (ts count : Nat) :
    Except Error (List Message) :=
  if p.segments.isEmpty then .ok []
  else
    match findStartOffsetByTimestamp ts p.segments with
    | none => .ok []
    | some start_offset => p.get_messages_by_offset start_offset count

/-- Does the segment's indexed timestamp range `[first, last]` contain `ts`?
(The claim-side characterisation of the segments the timestamp scan keeps.) -/
def Segment.containsTimestamp (s : Segment) (ts : Nat) : Bool :=
  match s.time_indexes.head?, s.time_indexes.getLast? with
  | some f, some l => decide (f.timestamp ≤ ts) && decide (ts ≤ l.timestamp)
  | _, _ => false

/-- Push one message handle onto the bounded ring cache, evicting from the
front when the capacity is reached. -/
def Partition.cache_push (p : Partition) (m : Message) : Partition :=
  let kept :=
    if p.config.cache_capacity ≤ p.messages.length then
      p.messages.drop (p.messages.length + 1 - p.config.cache_capacity)
    else p.messages
  { p with messages := kept ++ [m] }

/-- The offset bookkeeping at the head of the append loop: if
`should_increment_offset`, `current_offset += 1`; otherwise set
`should_increment_offset = true` (this makes the first ever message land at
offset 0). -/
def bumpPartition (p : Partition) : Partition :=
  if p.should_increment_offset then { p with current_offset := p.current_offset + 1 }
  else { p with should_increment_offset := true }

/-- The per-message loop of `Partition::append_messages`: bump
`current_offset` (or arm `should_increment_offset` on the very first append),
stamp the message with the offset and the next clock reading, append it to the
active segment and push it onto the ring cache.  The clock source
(`timestamp::get`, not in the excerpt) is modelled from the spec as the list of
successive `now_ms()` readings, one per message. -/
def appendLoop : Partition → Segment → List (Message × Nat) → Except Error (Partition × Segment)
  | p, seg, [] => .ok (p, seg)
  | p, seg, (m, now) :: rest =>
    let p1 := bumpPartition p
    let m1 := { m with offset := p1.current_offset, timestamp := now }
    match seg.append_message m1 with
    | .error e => .error e
    | .ok seg1 => appendLoop (p1.cache_push m1) seg1 rest

/-- The segments that stay untouched in front of the active segment during an
append: on a roll the whole old list, otherwise everything but the last. -/
def rollFront (p : Partition) (last : Segment) : List Segment :=
  if last.is_closed then p.segments else p.segments.dropLast

/-- The segment the append loop writes into: a fresh segment at
`last.end_offset + 1` when the active segment is closed
(`Partition::process_new_segment`), the active segment itself otherwise. -/
def rollSeg (p : Partition) (last : Segment) : Segment :=
  if last.is_closed then Segment.create p.id (last.end_offset + 1) p.config.segment_size_bytes
  else last

/-- The body of `Partition::append_messages` once the active segment `last` is
known: roll if closed, run the per-message loop, bump `unsaved_messages_count`
and persist (resetting the counter) when the threshold is reached or the
segment is full. -/
def appendWith (p : Partition) (last : Segment) (msgs : List (Message × Nat)) :
    Except Error Partition :=
  match appendLoop p (rollSeg p last) msgs with
  | .error e => .error e
  | .ok (p1, seg1) =>
    let unsaved := p1.unsaved_messages_count + msgs.length
    if p1.config.messages_required_to_save ≤ unsaved || seg1.is_full then
      .ok { p1 with
        segments := rollFront p last ++ [seg1.persist_messages]
        unsaved_messages_count := 0 }
    else
      .ok { p1 with
        segments := rollFront p last ++ [seg1]
        unsaved_messages_count := unsaved }

/-- `Partition::append_messages`: fail with `SegmentNotFound` when there is no
segment, otherwise run `appendWith` against the active (last) segment. -/
def Partition.append_messages (p : Partition) (msgs : List (Message × Nat)) :
    Except Error Partition :=
  match p.segments.getLast? with
  | none => .error .SegmentNotFound
  | some last => appendWith p last msgs

/-- Modelled from the spec: partition creation (topic registry / partition
source not in the excerpt) yields one empty segment at offset 0,
`current_offset = 0` and `should_increment_offset = false`, an empty cache and
no consumer offsets. -/
def Partition.create (id : Nat) (config : Config) : Partition :=
  { id := id
    current_offset := 0
    should_increment_offset := false
    segments := [Segment.create id 0 config.segment_size_bytes]
    messages := []
    consumer_offsets := []
    unsaved_messages_count := 0
    config := config }

/-- A whole history of append calls, batch by batch. -/
def appendBatches : Partition → List (List (Message × Nat)) → Except Error Partition
  | p, [] => .ok p
  | p, b :: bs =>
    match p.append_messages b with
    | .error e => .error e
    | .ok p' => appendBatches p' bs

/-- The offsets of all records stored across the partition's segments, in
segment order (= submission order). -/
def segsOffsets : List Segment → List Nat
  | [] => []
  | s :: rest => s.store.map Message.offset ++ segsOffsets rest

/-- The timestamps of all records stored across the partition's segments, in
segment order. -/
def segsTimestamps : List Segment → List Nat
  | [] => []
  | s :: rest => s.store.map Message.timestamp ++ segsTimestamps rest

/-- The offsets the partition has assigned, read back from its log. -/
def Partition.logOffsets (p : Partition) : List Nat :=
  segsOffsets p.segments

/-- The timestamps the partition has assigned, read back from its log. -/
def Partition.logTimestamps (p : Partition) : List Nat :=
  segsTimestamps p.segments

/-- The offsets a run of the append loop assigns, as a function of the
partition's `current_offset` and `should_increment_offset` before the run. -/
def assignedOffsets (c : Nat) (flag : Bool) (k : Nat) : List Nat :=
  if flag then List.range' (c + 1) k else List.range' c k

/-- Adjacency invariant on a partition's segment list: every consecutive pair
satisfies `next.start_offset = prev.end_offset + 1`. -/
def adjacentSegments (segs : List Segment) : Prop :=
  List.Chain' (fun a b => b.start_offset = a.end_offset + 1) segs

/-- Extract the `ok` payload of an `Except`, with a fallback. -/
def exOk {α : Type} (e : Except Error α) (dflt : α) : α :=
  match e with
  | .ok a => a
  | .error _ => dflt

/-!  The create-stream wire handler (`server/src/handlers/create_stream_handler.rs`). -/

/-- Standard UTF-8 validity of a byte sequence, as checked by the standard
library's `from_utf8`: ASCII, and 2/3/4-byte sequences with the usual
continuation-byte ranges, rejecting overlong forms, surrogates and code points
above U+10FFFF. -/
def validUtf8 : List Nat → Bool
  | [] => true
  | b :: rest =>
    if b < 0x80 then validUtf8 rest
    else if b < 0xC2 then false
    else if b < 0xE0 then
      match rest with
      | b1 :: rest2 => decide (0x80 ≤ b1) && decide (b1 < 0xC0) && validUtf8 rest2
      | [] => false
    else if b < 0xF0 then
      match rest with
      | b1 :: b2 :: rest2 =>
        (if b = 0xE0 then decide (0xA0 ≤ b1) && decide (b1 < 0xC0)
         else if b = 0xED then decide (0x80 ≤ b1) && decide (b1 < 0xA0)
         else decide (0x80 ≤ b1) && decide (b1 < 0xC0))
        && (decide (0x80 ≤ b2) && decide (b2 < 0xC0)) && validUtf8 rest2
      | _ => false
    else if b < 0xF5 then
      match rest with
      | b1 :: b2 :: b3 :: rest2 =>
        (if b = 0xF0 then decide (0x90 ≤ b1) && decide (b1 < 0xC0)
         else if b = 0xF4 then decide (0x80 ≤ b1) && decide (b1 < 0x90)
         else decide (0x80 ≤ b1) && decide (b1 < 0xC0))
        && (decide (0x80 ≤ b2) && decide (b2 < 0xC0))
        && (decide (0x80 ≤ b3) && decide (b3 < 0xC0)) && validUtf8 rest2
      | _ => false
    else false

/-- Outcome of the create-stream wire handler: a reply was sent, an error was
returned to the dispatcher, or the task panicked (an `unwrap` failed). -/
inductive HandlerOutcome where
  | replied
  | failed (e : Error)
  | panicked
deriving DecidableEq

/-- Little-endian `u32` from four bytes. -/
def leU32 (b0 b1 b2 b3 : Nat) : Nat :=
  b0 + 256 * b1 + 65536 * b2 + 16777216 * b3

/-- The create-stream handler (`create_stream_handler::handle`): frames shorter
than 5 bytes are `InvalidCommand`; the first four bytes are the little-endian
stream id; the remaining bytes are decoded as UTF-8 with
`from_utf8(..).unwrap()` — a panic on invalid UTF-8; names longer than 100
bytes are `InvalidStreamName`; otherwise `System::create_stream` runs (its
source is not in the excerpt, so its verdict is the parameter `createStream`)
and on success the OK status byte is sent. -/
def handleCreateStream (createStream : Nat → List Nat → Except Error Unit)
    (input : List Nat) : HandlerOutcome :=
  if input.length < 5 then .failed .InvalidCommand
  else
    let stream := leU32 (input.getD 0 0) (input.getD 1 0) (input.getD 2 0) (input.getD 3 0)
    let name := input.drop 4
    if validUtf8 name then
      if 100 < name.length then .failed .InvalidStreamName
      else
        match createStream stream name with
        | .error e => .failed e
        | .ok _ => .replied
    else .panicked

/-!  Concrete fixtures used by the evaluation and witness theorems. -/

/-- A small configuration: persist threshold 100, segment size 1000 bytes,
cache capacity 10. -/
def cfgEx : Config := ⟨100, 1000, 10⟩

/-- A producer-side message before offset/timestamp assignment. -/
def mEx : Message := ⟨0, 0, 7, [1, 2, 3]⟩

/-- A stored message at offset 0. -/
def msg0 : Message := ⟨0, 50, 7, [1]⟩

/-- A stored message at offset 1. -/
def msg1 : Message := ⟨1, 60, 7, [2]⟩

/-- A segment holding offsets 0 and 1. -/
def segEx2 : Segment :=
  { partition_id := 1, start_offset := 0, current_offset := 1, end_offset := 0
    is_closed := false, time_indexes := [⟨0, 50⟩, ⟨1, 60⟩]
    store := [msg0, msg1], current_size_bytes := 74, max_size_bytes := 1000 }

/-- A partition with one segment and the ring cache holding offsets 0 and 1. -/
def pEx2 : Partition :=
  { id := 1, current_offset := 1, should_increment_offset := true
    segments := [segEx2], messages := [msg0, msg1], consumer_offsets := []
    unsaved_messages_count := 2, config := cfgEx }

/-- `pEx2` with a consumer whose stored offset equals `current_offset`. -/
def pEx6 : Partition :=
  { pEx2 with consumer_offsets := [(1, ⟨1, 0⟩)] }

/-- A segment with time-index entries at timestamps 100, 200, 300, 400. -/
def segEx8 : Segment :=
  { partition_id := 1, start_offset := 0, current_offset := 3, end_offset := 0
    is_closed := false
    time_indexes := [⟨0, 100⟩, ⟨1, 200⟩, ⟨2, 300⟩, ⟨3, 400⟩]
    store := [], current_size_bytes := 0, max_size_bytes := 1000 }

/-- The time-index entry of `segEx8` with the first timestamp at or above 250. -/
def tiEx8 : TimeIndexEntry := ⟨2, 300⟩

/-- A partition whose only segment is `segEx8`. -/
def pEx8 : Partition :=
  { id := 1, current_offset := 3, should_increment_offset := true
    segments := [segEx8], messages := [], consumer_offsets := []
    unsaved_messages_count := 0, config := cfgEx }

/-- A closed segment covering offsets 0..1 with `end_offset = 1`. -/
def segEx9 : Segment :=
  { partition_id := 1, start_offset := 0, current_offset := 1, end_offset := 1
    is_closed := true, time_indexes := [⟨0, 50⟩, ⟨1, 60⟩]
    store := [msg0, msg1], current_size_bytes := 74, max_size_bytes := 1000 }

/-- A partition whose active (last) segment `segEx9` is closed. -/
def pEx9 : Partition :=
  { id := 1, current_offset := 1, should_increment_offset := true
    segments := [segEx9], messages := [msg0, msg1], consumer_offsets := []
    unsaved_messages_count := 0, config := cfgEx }

/-- The partition after appending one message to `pEx9` (forces a roll). -/
def pEx9res : Partition :=
  exOk (pEx9.append_messages [(mEx, 70)]) pEx9

/-- A two-batch append history totalling three messages. -/
def batchesEx : List (List (Message × Nat)) :=
  [[(mEx, 5)], [(mEx, 6), (mEx, 7)]]

/-- The partition produced by running `batchesEx` on a fresh partition. -/
def pC1res : Partition :=
  exOk (appendBatches (Partition.create 1 cfgEx) batchesEx) (Partition.create 1 cfgEx)

/-- A `System::create_stream` stand-in that always succeeds. -/
def createStreamOk : Nat → List Nat → Except Error Unit := fun _ _ => .ok ()

/-!  Theorems. -/

/-- C5: for every segment with a non-empty offset range
(`start_offset ≤ current_offset`) and every query range with
`offset ≤ end_offset`, the three-clause predicate of
`filter_segments_by_offsets` selects the segment exactly when the overlap
predicate `segment.start_offset ≤ end_offset ∧ segment.current_offset ≥ offset`
does. -/
theorem segment_filter_equals_overlap (s : Segment) (offset end_offset : Nat)
    (hseg : s.start_offset ≤ s.current_offset) (hq : offset ≤ end_offset) :
    segmentMatches offset end_offset s = segmentOverlaps offset end_offset s := by
  unfold segmentMatches segmentOverlaps
  rw [Bool.eq_iff_iff]
  simp only [Bool.or_eq_true, Bool.and_eq_true, decide_eq_true_eq]
  omega

/-- Witness for C5 at a concrete segment and query range. -/
theorem segment_filter_equals_overlap_witness :
    segEx2.start_offset ≤ segEx2.current_offset ∧ (0 : Nat) ≤ 1 ∧
      segmentMatches 0 1 segEx2 = segmentOverlaps 0 1 segEx2 :=
  ⟨by decide, by decide, segment_filter_equals_overlap segEx2 0 1 (by decide) (by decide)⟩

/-- C6: `get_next_messages` returns `get_first_messages` when the consumer has
no stored offset, the empty vector when the stored offset equals
`current_offset`, and `get_messages_by_offset(stored_offset, count)` (inclusive
of the stored offset) otherwise. -/
theorem get_next_messages_delegation (p : Partition) (cid count : Nat) :
    (lookupConsumer p.consumer_offsets cid = none →
      p.get_next_messages cid count = p.get_first_messages count) ∧
    (∀ co, lookupConsumer p.consumer_offsets cid = some co →
      co.offset = p.current_offset → p.get_next_messages cid count = Except.ok []) ∧
    (∀ co, lookupConsumer p.consumer_offsets cid = some co →
      co.offset ≠ p.current_offset →
      p.get_next_messages cid count = p.get_messages_by_offset co.offset count) := by
  refine ⟨?_, ?_, ?_⟩
  · intro h
    simp [Partition.get_next_messages, h]
  · intro co h hco
    simp [Partition.get_next_messages, h, hco]
  · intro co h hco
    simp [Partition.get_next_messages, h, hco]

/-- Witness for C6: a consumer whose stored offset equals `current_offset`
receives the empty vector. -/
theorem get_next_messages_delegation_witness :
    pEx6.get_next_messages 1 3 = Except.ok [] :=
  (get_next_messages_delegation pEx6 1 3).2.1 ⟨1, 0⟩ rfl rfl

/-- C10: the create-stream handler is total only for valid-UTF-8 names — for
every frame of length at least 5 whose name bytes are not valid UTF-8 it
panics via `unwrap`, and for valid UTF-8 it never panics. -/
theorem create_stream_handler_panics_on_invalid_utf8
    (createStream : Nat → List Nat → Except Error Unit) (input : List Nat)
    (h5 : 5 ≤ input.length) :
    (validUtf8 (input.drop 4) = false →
      handleCreateStream createStream input = .panicked) ∧
    (validUtf8 (input.drop 4) = true →
      handleCreateStream createStream input ≠ .panicked) := by
  constructor
  · intro hv
    simp [handleCreateStream, Nat.not_lt.mpr h5, hv]
  · intro hv
    simp only [handleCreateStream, if_neg (Nat.not_lt.mpr h5), hv, if_true]
    split
    · simp
    · split <;> simp

/-- Witness for C10: the 5-byte frame whose name byte is `0x80` (not UTF-8)
makes the handler panic. -/
theorem create_stream_handler_panics_witness :
    handleCreateStream createStreamOk [0, 0, 0, 0, 128] = .panicked :=
  (create_stream_handler_panics_on_invalid_utf8 createStreamOk
    [0, 0, 0, 0, 128] (by decide)).1 rfl

/-- C2 fails on the code: `count = 0` underflows the `u32` subtraction
`count - 1` in `get_end_offset` (wrapping to 2^32 - 1 in release builds,
panicking in debug builds), so `get_messages_by_offset(0, 0)` on a partition
holding offsets 0 and 1 returns both messages instead of the empty vector. -/
theorem count_zero_returns_messages :
    (pEx2.get_messages_by_offset 0 0).map (List.map Message.offset) =
      Except.ok [0, 1] := by
  rfl

/-- C3 fails on the code: `append_messages` assigns `timestamp::get()` without
clamping against the previously assigned timestamp, so a clock that reads 10
and then 5 yields the decreasing assigned timestamps `[10, 5]`. -/
theorem append_timestamps_follow_clock :
    (Partition.append_messages (Partition.create 1 cfgEx) [(mEx, 10), (mEx, 5)]).map
      Partition.logTimestamps = Except.ok [10, 5] := by
  rfl

/-- A segment whose `current_offset` lies below the requested start yields no
messages. -/
theorem seg_get_messages_eq_nil (s : Segment) (start count : Nat)
    (h : s.current_offset < start) : s.get_messages start count = [] := by
  unfold Segment.get_messages
  rw [List.filter_eq_nil_iff]
  intro m _
  simp only [Bool.and_eq_true, decide_eq_true_eq]
  omega

/-- The cache probe yields nothing (or an empty hit) when the clamped end
offset lies below the requested start. -/
theorem try_get_cache_trivial (p : Partition) (start e : Nat) (he : e < start) :
    p.try_get_messages_from_cache start e = none ∨
    p.try_get_messages_from_cache start e = some [] := by
  unfold Partition.try_get_messages_from_cache
  cases hh : p.messages.head? with
  | none => exact Or.inl rfl
  | some first =>
    show (if first.offset ≤ start then some (p.load_messages_from_cache start e) else none) = none ∨
      (if first.offset ≤ start then some (p.load_messages_from_cache start e) else none) = some []
    by_cases hfo : first.offset ≤ start
    · right
      rw [if_pos hfo]
      have hload : p.load_messages_from_cache start e = [] := by
        unfold Partition.load_messages_from_cache
        rw [List.filter_eq_nil_iff]
        intro m _
        simp only [Bool.and_eq_true, decide_eq_true_eq]
        omega
      rw [hload]
    · exact Or.inl (by rw [if_neg hfo])

/-- Concatenated segment reads are empty when every segment read is. -/
theorem concatSegmentReads_eq_nil (start count : Nat) (l : List Segment)
    (h : ∀ s ∈ l, s.get_messages start count = []) :
    concatSegmentReads start count l = [] := by
  induction l with
  | nil => rfl
  | cons s rest ih =>
    simp only [concatSegmentReads]
    rw [h s (by simp), ih (fun s hs => h s (by simp [hs]))]
    rfl

/-- C7: with at least one segment and `count ≥ 1`, a start offset beyond the
active segment's `current_offset` makes `get_messages_by_offset` return the
empty vector without error (every partition segment's `current_offset` is at
most the active one's). -/
theorem read_past_end_returns_empty (p : Partition) (seg : Segment) (start count : Nat)
    (hseg : p.segments.getLast? = some seg)
    (hcount : 1 ≤ count)
    (hstart : seg.current_offset < start)
    (hmono : ∀ s ∈ p.segments, s.current_offset ≤ seg.current_offset) :
    p.get_messages_by_offset start count = .ok [] := by
  have hne : p.segments ≠ [] := by
    intro h
    rw [h] at hseg
    simp at hseg
  have hie : p.segments.isEmpty = false := by
    cases hs : p.segments with
    | nil => exact absurd hs hne
    | cons a l => rfl
  have hE : p.get_end_offset start count ≤ seg.current_offset := by
    unfold Partition.get_end_offset
    rw [hseg]
    exact Nat.min_le_right _ _
  have hElt : p.get_end_offset start count < start := Nat.lt_of_le_of_lt hE hstart
  have hfiltered : ∀ s ∈ p.filter_segments_by_offsets start (p.get_end_offset start count),
      s.get_messages start count = [] := by
    intro s hs
    have hmem : s ∈ p.segments := List.mem_of_mem_filter hs
    exact seg_get_messages_eq_nil s start count (Nat.lt_of_le_of_lt (hmono s hmem) hstart)
  simp only [Partition.get_messages_by_offset, hie, Bool.false_eq_true, if_false]
  rcases try_get_cache_trivial p start (p.get_end_offset start count) hElt with hc | hc
  · rw [hc]
    cases hl : p.filter_segments_by_offsets start (p.get_end_offset start count) with
    | nil => rfl
    | cons s1 t =>
      cases t with
      | nil =>
        have h1 : s1.get_messages start count = [] := by
          apply hfiltered
          rw [hl]
          simp
        show Except.ok (s1.get_messages start count) = Except.ok []
        rw [h1]
      | cons s2 t2 =>
        have h1 : concatSegmentReads start count (s1 :: s2 :: t2) = [] := by
          apply concatSegmentReads_eq_nil
          intro s hs
          apply hfiltered
          rw [hl]
          exact hs
        show Except.ok (concatSegmentReads start count (s1 :: s2 :: t2)) = Except.ok []
        rw [h1]
  · rw [hc]

/-- Witness for C7: reading from offset 5 of a partition whose active segment
ends at offset 1 returns the empty vector. -/
theorem read_past_end_returns_empty_witness :
    pEx2.get_messages_by_offset 5 3 = .ok [] :=
  read_past_end_returns_empty pEx2 segEx2 5 3 rfl (by decide) (by decide)
    (by intro s hs; simp [pEx2] at hs; simp [hs])

/-- One-step unfolding of the timestamp scan on a non-empty segment list. -/
theorem findStart_cons (ts : Nat) (s : Segment) (rest : List Segment) :
    findStartOffsetByTimestamp ts (s :: rest) =
      match s.time_indexes.head?, s.time_indexes.getLast? with
      | some f, some l =>
        if ts < f.timestamp || l.timestamp < ts then findStartOffsetByTimestamp ts rest
        else
          some (s.start_offset +
            (((s.time_indexes.find? (fun ti => decide (ts ≤ ti.timestamp))).map
              TimeIndexEntry.relative_offset).getD 0))
      | _, _ => findStartOffsetByTimestamp ts rest := rfl

/-- The timestamp scan skips a segment whose indexed range does not contain
`ts` (or whose time index is empty). -/
theorem findStart_cons_skip (ts : Nat) (s : Segment) (rest : List Segment)
    (h : s.containsTimestamp ts = false) :
    findStartOffsetByTimestamp ts (s :: rest) = findStartOffsetByTimestamp ts rest := by
  rw [findStart_cons]
  unfold Segment.containsTimestamp at h
  cases hh : s.time_indexes.head? with
  | none =>
    cases hl : s.time_indexes.getLast? <;> rfl
  | some f =>
    cases hl : s.time_indexes.getLast? with
    | none => rfl
    | some l =>
      rw [hh, hl] at h
      simp at h
      show (if ts < f.timestamp || l.timestamp < ts then findStartOffsetByTimestamp ts rest
        else some (s.start_offset +
          (((s.time_indexes.find? (fun ti => decide (ts ≤ ti.timestamp))).map
            TimeIndexEntry.relative_offset).getD 0))) = findStartOffsetByTimestamp ts rest
      split
      · rfl
      · rename_i hcond
        exfalso
        simp at hcond
        omega

/-- The timestamp scan stops at the first segment whose indexed range contains
`ts` and produces the absolute offset of the first entry with
`entry.timestamp ≥ ts`. -/
theorem findStart_cons_hit (ts : Nat) (s : Segment) (rest : List Segment) (e : TimeIndexEntry)
    (h : s.containsTimestamp ts = true)
    (hfind : s.time_indexes.find? (fun ti => decide (ts ≤ ti.timestamp)) = some e) :
    findStartOffsetByTimestamp ts (s :: rest) = some (s.start_offset + e.relative_offset) := by
  rw [findStart_cons]
  unfold Segment.containsTimestamp at h
  cases hh : s.time_indexes.head? with
  | none =>
    rw [hh] at h
    simp at h
  | some f =>
    cases hl : s.time_indexes.getLast? with
    | none =>
      rw [hh, hl] at h
      simp at h
    | some l =>
      rw [hh, hl] at h
      simp at h
      show (if ts < f.timestamp || l.timestamp < ts then findStartOffsetByTimestamp ts rest
        else some (s.start_offset +
          (((s.time_indexes.find? (fun ti => decide (ts ≤ ti.timestamp))).map
            TimeIndexEntry.relative_offset).getD 0))) = some (s.start_offset + e.relative_offset)
      split
      · rename_i hcond
        exfalso
        simp at hcond
        omega
      · rw [hfind]
        rfl

/-- When no segment's indexed timestamp range contains `ts`, the scan finds no
start offset. -/
theorem findStart_eq_none (ts : Nat) (segs : List Segment)
    (h : segs.find? (fun s => s.containsTimestamp ts) = none) :
    findStartOffsetByTimestamp ts segs = none := by
  induction segs with
  | nil => rfl
  | cons s0 rest ih =>
    cases hp : s0.containsTimestamp ts with
    | false =>
      rw [findStart_cons_skip ts s0 rest hp]
      apply ih
      rw [List.find?_cons_of_neg] at h
      · exact h
      · simp [hp]
    | true =>
      exfalso
      rw [List.find?_cons_of_pos] at h
      · simp at h
      · simp [hp]

/-- The scan's result on the first containing segment, phrased through
`List.find?`. -/
theorem findStart_eq_some (ts : Nat) (segs : List Segment) (s : Segment) (e : TimeIndexEntry)
    (hf : segs.find? (fun s => s.containsTimestamp ts) = some s)
    (hfind : s.time_indexes.find? (fun ti => decide (ts ≤ ti.timestamp)) = some e) :
    findStartOffsetByTimestamp ts segs = some (s.start_offset + e.relative_offset) := by
  induction segs with
  | nil => simp at hf
  | cons s0 rest ih =>
    cases hp : s0.containsTimestamp ts with
    | false =>
      rw [findStart_cons_skip ts s0 rest hp]
      apply ih
      rw [List.find?_cons_of_neg] at hf
      · exact hf
      · simp [hp]
    | true =>
      rw [List.find?_cons_of_pos] at hf
      · have hs : s0 = s := by
          injection hf
        subst hs
        exact findStart_cons_hit ts s0 rest e hp hfind
      · simp [hp]

/-- C8: `get_messages_by_timestamp` returns the empty vector when no segment's
time-index range `[first.timestamp, last.timestamp]` contains `ts`; otherwise
it delegates to `get_messages_by_offset` at the absolute offset
`segment.start_offset + entry.relative_offset` of the first containing
segment's first entry with `entry.timestamp ≥ ts`. -/
theorem timestamp_lookup_spec (p : Partition) (ts count : Nat) :
    (p.segments.find? (fun s => s.containsTimestamp ts) = none →
      p.get_messages_by_timestamp ts count = .ok []) ∧
    (∀ s e, p.segments.find? (fun s => s.containsTimestamp ts) = some s →
      s.time_indexes.find? (fun ti => decide (ts ≤ ti.timestamp)) = some e →
      p.get_messages_by_timestamp ts count =
        p.get_messages_by_offset (s.start_offset + e.relative_offset) count) := by
  constructor
  · intro h
    unfold Partition.get_messages_by_timestamp
    split
    · rfl
    · rw [findStart_eq_none ts p.segments h]
  · intro s e hf hfind
    unfold Partition.get_messages_by_timestamp
    split
    · rename_i hie
      exfalso
      have : p.segments = [] := by
        cases hs : p.segments with
        | nil => rfl
        | cons a l => rw [hs] at hie; simp at hie
      rw [this] at hf
      simp at hf
    · rw [findStart_eq_some ts p.segments s e hf hfind]

/-- Witness for C8: in a partition indexed at timestamps 100..400, the lookup
at 250 delegates to offset 2 (the entry at timestamp 300). -/
theorem timestamp_lookup_spec_witness :
    pEx8.get_messages_by_timestamp 250 10 = pEx8.get_messages_by_offset 2 10 :=
  (timestamp_lookup_spec pEx8 250 10).2 segEx8 tiEx8 rfl rfl

/-- Filtering `range'` by an upper bound keeps the prefix up to the bound. -/
theorem filter_le_range' (hi : Nat) : ∀ (n a : Nat),
    (List.range' a n).filter (fun o => decide (o ≤ hi)) =
      List.range' a (min n (hi + 1 - a)) := by
  intro n
  induction n with
  | zero =>
    intro a
    simp
  | succ n ih =>
    intro a
    rw [List.range'_succ, List.filter_cons]
    by_cases h : a ≤ hi
    · have hd : decide (a ≤ hi) = true := by simp [h]
      rw [hd, if_pos rfl, ih (a + 1)]
      have h1 : min (n + 1) (hi + 1 - a) = min n (hi + 1 - (a + 1)) + 1 := by omega
      rw [h1, List.range'_succ]
    · have hd : decide (a ≤ hi) = false := by simp [h]
      rw [hd, if_neg (by simp), ih (a + 1)]
      have h1 : min n (hi + 1 - (a + 1)) = 0 := by omega
      have h2 : min (n + 1) (hi + 1 - a) = 0 := by omega
      rw [h1, h2]
      rfl

/-- Filtering `range'` by a lower bound keeps the suffix from the bound on. -/
theorem filter_ge_range' (lo : Nat) : ∀ (n a : Nat),
    (List.range' a n).filter (fun o => decide (lo ≤ o)) =
      List.range' (max a lo) (a + n - max a lo) := by
  intro n
  induction n with
  | zero =>
    intro a
    have h1 : a + 0 - max a lo = 0 := by omega
    rw [h1]
    rfl
  | succ n ih =>
    intro a
    rw [List.range'_succ, List.filter_cons]
    by_cases h : lo ≤ a
    · have hd : decide (lo ≤ a) = true := by simp [h]
      rw [hd, if_pos rfl, ih (a + 1)]
      have h1 : max (a + 1) lo = a + 1 := by omega
      have h2 : max a lo = a := by omega
      rw [h1, h2]
      have h3 : a + 1 + n - (a + 1) = n := by omega
      have h4 : a + (n + 1) - a = n + 1 := by omega
      rw [h3, h4, List.range'_succ]
    · have hd : decide (lo ≤ a) = false := by simp [h]
      rw [hd, if_neg (by simp), ih (a + 1)]
      have h1 : max (a + 1) lo = max a lo := by omega
      have h2 : a + 1 + n - max (a + 1) lo = a + (n + 1) - max a lo := by omega
      rw [h1] at h2
      rw [h1, h2]

/-- A conjunction filter is two nested filters. -/
theorem filter_and_eq_filter_filter (p q : Nat → Bool) (l : List Nat) :
    l.filter (fun o => p o && q o) = (l.filter q).filter p := by
  induction l with
  | nil => rfl
  | cons x t ih =>
    cases hq : q x <;> cases hp : p x <;> simp [List.filter_cons, hp, hq] <;>
      first
      | exact ih
      | rw [ih]

/-- Filtering `range' a n` to the window `[lo, hi]` (with `a ≤ lo ≤ hi` and the
window inside the range) yields exactly `range' lo (hi + 1 - lo)`. -/
theorem filter_window_range' (lo hi n a : Nat) (h1 : a ≤ lo) (h2 : lo ≤ hi)
    (h3 : hi + 1 ≤ a + n) :
    (List.range' a n).filter (fun o => decide (lo ≤ o) && decide (o ≤ hi)) =
      List.range' lo (hi + 1 - lo) := by
  rw [filter_and_eq_filter_filter (fun o => decide (lo ≤ o)) (fun o => decide (o ≤ hi))]
  rw [filter_le_range' hi n a]
  have hmin : min n (hi + 1 - a) = hi + 1 - a := by omega
  rw [hmin, filter_ge_range' lo (hi + 1 - a) a]
  have hx : max a lo = lo := by omega
  rw [hx]
  have hm : a + (hi + 1 - a) - lo = hi + 1 - lo := by omega
  rw [hm]

/-- Mapping offsets commutes with filtering on offsets. -/
theorem map_offset_filter (P : Nat → Bool) (l : List Message) :
    (l.filter (fun m => P m.offset)).map Message.offset =
      (l.map Message.offset).filter P := by
  induction l with
  | nil => rfl
  | cons m t ih => cases hp : P m.offset <;> simp [List.filter_cons, hp, ih]

/-- C4: when the ring cache holds a contiguous suffix of the log ending at
`current_offset` (offsets `a..current_offset`, matching the active segment) and
`start ≥ a`, `get_messages_by_offset` answers entirely from the cache: it
returns exactly the cached messages with offsets in `[start, end_offset]` for
`end_offset = min(start + count - 1, current_offset)`, i.e.
`end_offset - start + 1` messages in offset order. -/
theorem cache_hit_is_complete (p : Partition) (seg : Segment) (a start count : Nat)
    (hseg : p.segments.getLast? = some seg)
    (hcur : seg.current_offset = p.current_offset)
    (ha : a ≤ p.current_offset)
    (hcache : p.messages.map Message.offset = List.range' a (p.current_offset + 1 - a))
    (hstart : a ≤ start)
    (hstartle : start ≤ p.current_offset)
    (hcount : 1 ≤ count) (hcount32 : count < U32LIMIT) :
    p.get_messages_by_offset start count =
      .ok (p.load_messages_from_cache start (min (start + count - 1) p.current_offset)) ∧
    (p.load_messages_from_cache start (min (start + count - 1) p.current_offset)).map
        Message.offset =
      List.range' start (min (start + count - 1) p.current_offset + 1 - start) := by
  have hw : (count + (U32LIMIT - 1)) % U32LIMIT = count - 1 := by
    have h1 : count + (U32LIMIT - 1) = (count - 1) + 1 * U32LIMIT := by
      simp only [U32LIMIT] at *
      omega
    rw [h1, Nat.add_mul_mod_self_right]
    apply Nat.mod_eq_of_lt
    simp only [U32LIMIT] at *
    omega
  have hE : p.get_end_offset start count = min (start + count - 1) p.current_offset := by
    simp only [Partition.get_end_offset, hseg, hw, Option.map_some', Option.getD_some, hcur]
    have h2 : start + (count - 1) = start + count - 1 := by omega
    rw [h2]
  obtain ⟨m0, t, hm⟩ : ∃ m0 t, p.messages = m0 :: t := by
    cases hms : p.messages with
    | nil =>
      rw [hms] at hcache
      simp only [List.map_nil] at hcache
      have h0 : p.current_offset + 1 - a = 0 := List.range'_eq_nil.mp hcache.symm
      omega
    | cons x l => exact ⟨x, l, rfl⟩
  have hm0 : m0.offset = a := by
    rw [hm] at hcache
    have h1 : p.current_offset + 1 - a = (p.current_offset - a) + 1 := by omega
    rw [h1, List.range'_succ] at hcache
    simp at hcache
    exact hcache.1
  have hne : p.segments ≠ [] := by
    intro h
    rw [h] at hseg
    simp at hseg
  have hie : p.segments.isEmpty = false := by
    cases hs : p.segments with
    | nil => exact absurd hs hne
    | cons x l => rfl
  have htry : p.try_get_messages_from_cache start (p.get_end_offset start count) =
      some (p.load_messages_from_cache start (p.get_end_offset start count)) := by
    unfold Partition.try_get_messages_from_cache
    rw [hm]
    show (if m0.offset ≤ start then
      some (p.load_messages_from_cache start (p.get_end_offset start count)) else none) = _
    rw [if_pos (by omega)]
  constructor
  · simp only [Partition.get_messages_by_offset, hie, Bool.false_eq_true, if_false]
    rw [htry, hE]
  · unfold Partition.load_messages_from_cache
    rw [map_offset_filter
      (fun o => decide (start ≤ o) && decide (o ≤ min (start + count - 1) p.current_offset))]
    rw [hcache]
    exact filter_window_range' start (min (start + count - 1) p.current_offset)
      (p.current_offset + 1 - a) a hstart (by omega) (by omega)

/-- Witness for C4: in `pEx2` (cache holds offsets 0..1), reading 5 messages
from offset 1 is answered from the cache with exactly the message at offset 1. -/
theorem cache_hit_is_complete_witness :
    pEx2.get_messages_by_offset 1 5 =
      .ok (pEx2.load_messages_from_cache 1 (min (1 + 5 - 1) pEx2.current_offset)) ∧
    (pEx2.load_messages_from_cache 1 (min (1 + 5 - 1) pEx2.current_offset)).map
        Message.offset =
      List.range' 1 (min (1 + 5 - 1) pEx2.current_offset + 1 - 1) :=
  cache_hit_is_complete pEx2 segEx2 0 1 5 rfl rfl (by decide) (by decide) (by decide)
    (by decide) (by decide) (by decide)

/-- `bumpPartition` never touches the segment list. -/
theorem bumpPartition_segments (p : Partition) : (bumpPartition p).segments = p.segments := by
  unfold bumpPartition
  split <;> rfl

/-- `bumpPartition` never touches the configuration. -/
theorem bumpPartition_config (p : Partition) : (bumpPartition p).config = p.config := by
  unfold bumpPartition
  split <;> rfl

/-- `bumpPartition` never touches the unsaved-message counter. -/
theorem bumpPartition_unsaved (p : Partition) :
    (bumpPartition p).unsaved_messages_count = p.unsaved_messages_count := by
  unfold bumpPartition
  split <;> rfl

/-- After `bumpPartition` the flag is armed. -/
theorem bumpPartition_flag (p : Partition) :
    (bumpPartition p).should_increment_offset = true := by
  unfold bumpPartition
  split
  · rename_i h
    exact h
  · rfl

/-- The offset `bumpPartition` leaves in `current_offset`. -/
theorem bumpPartition_current (p : Partition) :
    (bumpPartition p).current_offset =
      if p.should_increment_offset then p.current_offset + 1 else p.current_offset := by
  unfold bumpPartition
  split <;> simp_all

/-- The cache push never touches the segment list. -/
theorem cache_push_segments (p : Partition) (m : Message) :
    (p.cache_push m).segments = p.segments := rfl

/-- The cache push never touches the configuration. -/
theorem cache_push_config (p : Partition) (m : Message) :
    (p.cache_push m).config = p.config := rfl

/-- The cache push never touches the unsaved-message counter. -/
theorem cache_push_unsaved (p : Partition) (m : Message) :
    (p.cache_push m).unsaved_messages_count = p.unsaved_messages_count := rfl

/-- The cache push never touches `current_offset`. -/
theorem cache_push_current (p : Partition) (m : Message) :
    (p.cache_push m).current_offset = p.current_offset := rfl

/-- The cache push never touches the flag. -/
theorem cache_push_flag (p : Partition) (m : Message) :
    (p.cache_push m).should_increment_offset = p.should_increment_offset := rfl

/-- Persisting never changes a segment's start offset. -/
theorem persist_start_offset (s : Segment) :
    (s.persist_messages).start_offset = s.start_offset := by
  unfold Segment.persist_messages
  split <;> rfl

/-- Persisting never changes a segment's stored records. -/
theorem persist_store (s : Segment) : (s.persist_messages).store = s.store := by
  unfold Segment.persist_messages
  split <;> rfl

/-- One step of the append loop on an open segment. -/
theorem appendLoop_cons_ok (p : Partition) (seg : Segment) (m : Message) (now : Nat)
    (rest : List (Message × Nat)) (hcl : seg.is_closed = false) :
    appendLoop p seg ((m, now) :: rest) =
      appendLoop
        ((bumpPartition p).cache_push
          { m with offset := (bumpPartition p).current_offset, timestamp := now })
        { seg with
          store := seg.store ++
            [{ m with offset := (bumpPartition p).current_offset, timestamp := now }]
          time_indexes := seg.time_indexes ++
            [⟨(bumpPartition p).current_offset - seg.start_offset, now⟩]
          current_size_bytes := seg.current_size_bytes +
            encodedLength { m with offset := (bumpPartition p).current_offset, timestamp := now }
          current_offset := (bumpPartition p).current_offset }
        rest := by
  simp only [appendLoop, Segment.append_message, hcl, Bool.false_eq_true, if_false]

/-- Full specification of the append loop on an open segment: it succeeds, the
partition's segment list / config / unsaved counter are untouched, the segment
stays open with its start offset, the stored offsets grow by
`assignedOffsets`, the stored timestamps grow by the clock readings, and
`current_offset` / `should_increment_offset` advance accordingly. -/
theorem appendLoop_spec : ∀ (msgs : List (Message × Nat)) (p : Partition) (seg : Segment),
    seg.is_closed = false →
    ∃ p' seg',
      appendLoop p seg msgs = .ok (p', seg') ∧
      p'.segments = p.segments ∧
      p'.config = p.config ∧
      p'.unsaved_messages_count = p.unsaved_messages_count ∧
      seg'.is_closed = false ∧
      seg'.start_offset = seg.start_offset ∧
      seg'.store.map Message.offset =
        seg.store.map Message.offset ++
          assignedOffsets p.current_offset p.should_increment_offset msgs.length ∧
      seg'.store.map Message.timestamp =
        seg.store.map Message.timestamp ++ msgs.map Prod.snd ∧
      p'.current_offset =
        (if p.should_increment_offset then p.current_offset + msgs.length
         else p.current_offset + (msgs.length - 1)) ∧
      p'.should_increment_offset = (p.should_increment_offset || !msgs.isEmpty) := by
  intro msgs
  induction msgs with
  | nil =>
    intro p seg hcl
    refine ⟨p, seg, rfl, rfl, rfl, rfl, hcl, rfl, ?_, ?_, ?_, ?_⟩
    · cases hf : p.should_increment_offset <;> simp [assignedOffsets]
    · simp
    · cases hf : p.should_increment_offset <;> simp
    · simp
  | cons mn rest ih =>
    obtain ⟨m, now⟩ := mn
    intro p seg hcl
    obtain ⟨p', seg', hrun, hsegs, hconf, huns, hcl', hstart, hoff, hts, hcur, hflag⟩ :=
      ih
        ((bumpPartition p).cache_push
          { m with offset := (bumpPartition p).current_offset, timestamp := now })
        { seg with
          store := seg.store ++
            [{ m with offset := (bumpPartition p).current_offset, timestamp := now }]
          time_indexes := seg.time_indexes ++
            [⟨(bumpPartition p).current_offset - seg.start_offset, now⟩]
          current_size_bytes := seg.current_size_bytes +
            encodedLength { m with offset := (bumpPartition p).current_offset, timestamp := now }
          current_offset := (bumpPartition p).current_offset }
        hcl
    refine ⟨p', seg', ?_, ?_, ?_, ?_, hcl', hstart, ?_, ?_, ?_, ?_⟩
    · rw [appendLoop_cons_ok p seg m now rest hcl]
      exact hrun
    · rw [hsegs, cache_push_segments, bumpPartition_segments]
    · rw [hconf, cache_push_config, bumpPartition_config]
    · rw [huns, cache_push_unsaved, bumpPartition_unsaved]
    · rw [hoff]
      simp only [List.map_append, List.map_cons, List.map_nil,
        cache_push_current, cache_push_flag, bumpPartition_current, bumpPartition_flag]
      cases hf : p.should_increment_offset
      · simp only [hf, Bool.false_eq_true, if_false, assignedOffsets, if_true,
          List.length_cons]
        rw [List.append_assoc]
        congr 1
      · simp only [hf, if_true, assignedOffsets, List.length_cons]
        rw [List.append_assoc]
        congr 1
    · rw [hts]
      simp only [List.map_append, List.map_cons, List.map_nil]
      rw [List.append_assoc]
      rfl
    · rw [hcur]
      simp only [cache_push_current, cache_push_flag, bumpPartition_current, bumpPartition_flag,
        if_true, List.length_cons]
      cases hf : p.should_increment_offset <;> simp [hf] <;> omega
    · rw [hflag]
      simp only [cache_push_flag, bumpPartition_flag]
      simp

/-- Shape of a successful `append_messages` call: the untouched front segments
plus one written active segment, whose start offset is the rolled segment's
and whose store grew by the assigned offsets and clock timestamps. -/
theorem append_messages_shape (p : Partition) (msgs : List (Message × Nat)) (last : Segment)
    (hlast : p.segments.getLast? = some last) :
    ∃ p' seg2,
      p.append_messages msgs = .ok p' ∧
      p'.segments = rollFront p last ++ [seg2] ∧
      seg2.start_offset = (rollSeg p last).start_offset ∧
      seg2.store.map Message.offset =
        (rollSeg p last).store.map Message.offset ++
          assignedOffsets p.current_offset p.should_increment_offset msgs.length ∧
      seg2.store.map Message.timestamp =
        (rollSeg p last).store.map Message.timestamp ++ msgs.map Prod.snd ∧
      p'.current_offset =
        (if p.should_increment_offset then p.current_offset + msgs.length
         else p.current_offset + (msgs.length - 1)) ∧
      p'.should_increment_offset = (p.should_increment_offset || !msgs.isEmpty) ∧
      p'.config = p.config := by
  have hcl : (rollSeg p last).is_closed = false := by
    unfold rollSeg
    split
    · rfl
    · rename_i h
      simp at h
      exact h
  obtain ⟨p1, seg1, hrun, hsegs, hconf, huns, hcl1, hstart1, hoff1, hts1, hcur1, hflag1⟩ :=
    appendLoop_spec msgs p (rollSeg p last) hcl
  have happ : p.append_messages msgs = appendWith p last msgs := by
    unfold Partition.append_messages
    rw [hlast]
  have happ2 : appendWith p last msgs =
      (if p1.config.messages_required_to_save ≤ p1.unsaved_messages_count + msgs.length
          || seg1.is_full then
        Except.ok { p1 with
          segments := rollFront p last ++ [seg1.persist_messages]
          unsaved_messages_count := 0 }
      else
        Except.ok { p1 with
          segments := rollFront p last ++ [seg1]
          unsaved_messages_count := p1.unsaved_messages_count + msgs.length }) := by
    unfold appendWith
    rw [hrun]
  rw [happ, happ2]
  split
  · exact ⟨_, seg1.persist_messages, rfl, rfl,
      by rw [persist_start_offset]; exact hstart1,
      by rw [persist_store]; exact hoff1,
      by rw [persist_store]; exact hts1,
      hcur1, hflag1, hconf⟩
  · exact ⟨_, seg1, rfl, rfl, hstart1, hoff1, hts1, hcur1, hflag1, hconf⟩

/-- Peeling the last element off a list known through `getLast?`. -/
theorem segments_decomp (l : List Segment) (last : Segment) (h : l.getLast? = some last) :
    l.dropLast ++ [last] = l := by
  have hne : l ≠ [] := by
    intro hh
    rw [hh] at h
    simp at h
  have hg : l.getLast hne = last := by
    rw [List.getLast?_eq_getLast l hne] at h
    injection h
  rw [← hg]
  exact List.dropLast_append_getLast hne

/-- C9: `append_messages` on a partition whose active segment is closed first
creates the new active segment at `closed.end_offset + 1`, so every successful
`append_messages` call preserves the adjacency invariant
`next.start_offset = prev.end_offset + 1` on consecutive segments. -/
theorem append_preserves_adjacency (p : Partition) (msgs : List (Message × Nat))
    (p' : Partition) (h : p.append_messages msgs = .ok p')
    (hchain : adjacentSegments p.segments) :
    adjacentSegments p'.segments ∧
    (∀ lastc, p.segments.getLast? = some lastc → lastc.is_closed = true →
      ∃ seg2, p'.segments = p.segments ++ [seg2] ∧
        seg2.start_offset = lastc.end_offset + 1) := by
  cases hlast : p.segments.getLast? with
  | none =>
    exfalso
    unfold Partition.append_messages at h
    rw [hlast] at h
    simp at h
  | some last =>
    obtain ⟨p'', seg2, happ, hsegs, hstart, hoff, hts, hcur, hflag, hconf⟩ :=
      append_messages_shape p msgs last hlast
    rw [h] at happ
    have hp : p' = p'' := by
      injection happ
    subst hp
    constructor
    · rw [hsegs]
      cases hcl : last.is_closed with
      | true =>
        have hs2 : seg2.start_offset = last.end_offset + 1 := by
          rw [hstart]
          unfold rollSeg
          simp [hcl, Segment.create]
        have hfr : rollFront p last = p.segments := by
          unfold rollFront
          simp [hcl]
        rw [hfr]
        rw [adjacentSegments, List.chain'_append]
        refine ⟨hchain, ?_, ?_⟩
        · simp
        · intro x hx y hy
          rw [hlast] at hx
          simp at hx hy
          subst hx
          subst hy
          exact hs2
      | false =>
        have hfr : rollFront p last = p.segments.dropLast := by
          unfold rollFront
          simp [hcl]
        have hs2 : seg2.start_offset = last.start_offset := by
          rw [hstart]
          unfold rollSeg
          simp [hcl]
        rw [hfr]
        have hfull := segments_decomp p.segments last hlast
        rw [← hfull] at hchain
        rw [adjacentSegments, List.chain'_append] at hchain ⊢
        obtain ⟨h1, _, h3⟩ := hchain
        refine ⟨h1, by simp, ?_⟩
        intro x hx y hy
        simp at hy
        subst hy
        have hr := h3 x hx last (by simp)
        rw [hs2]
        exact hr
    · intro lastc hlastc hclc
      have hlc : last = lastc := by
        injection hlastc
      subst hlc
      refine ⟨seg2, ?_, ?_⟩
      · rw [hsegs]
        unfold rollFront
        simp [hclc]
      · rw [hstart]
        unfold rollSeg
        simp [hclc, Segment.create]

/-- Witness for C9: appending to `pEx9` (closed active segment ending at 1)
keeps consecutive segments adjacent. -/
theorem append_preserves_adjacency_witness :
    adjacentSegments pEx9res.segments :=
  (append_preserves_adjacency pEx9 [(mEx, 70)] pEx9res rfl
    (by simp [adjacentSegments, pEx9])).1

/-- `segsOffsets` distributes over list append. -/
theorem segsOffsets_append (l1 l2 : List Segment) :
    segsOffsets (l1 ++ l2) = segsOffsets l1 ++ segsOffsets l2 := by
  induction l1 with
  | nil => rfl
  | cons s t ih =>
    simp only [List.cons_append, segsOffsets]
    rw [List.append_assoc]
    congr 1

/-- The offsets a run assigns, expressed through the dense-log invariant
(`current_offset = n - 1`, flag armed iff `n ≠ 0`). -/
theorem assignedOffsets_inv (n k : Nat) :
    assignedOffsets (n - 1) (decide (n ≠ 0)) k = List.range' n k := by
  cases n with
  | zero => simp [assignedOffsets]
  | succ m => simp [assignedOffsets]

/-- Two adjacent ranges concatenate. -/
theorem range'_append_simple (n k : Nat) :
    List.range' 0 n ++ List.range' n k = List.range' 0 (n + k) := by
  have h := List.range'_append 0 n k 1
  simp at h
  rw [h, Nat.add_comm k n]

/-- The dense-offset invariant is preserved through a whole history of append
batches: starting from a state whose log holds offsets `0..n-1`, the final log
holds offsets `0..n+N-1` where `N` is the total number of appended messages. -/
theorem appendBatches_offsets : ∀ (batches : List (List (Message × Nat))) (p : Partition)
    (n : Nat), p.logOffsets = List.range' 0 n →
    p.current_offset = n - 1 →
    p.should_increment_offset = decide (n ≠ 0) →
    p.segments ≠ [] →
    ∀ p', appendBatches p batches = .ok p' →
    p'.logOffsets = List.range' 0 (n + (batches.map List.length).sum) := by
  intro batches
  induction batches with
  | nil =>
    intro p n hlog hcur hflag hne p' h
    have hp : p = p' := by
      injection h
    subst hp
    simpa using hlog
  | cons b bs ih =>
    intro p n hlog hcur hflag hne p' h
    obtain ⟨last, hlast⟩ : ∃ last, p.segments.getLast? = some last := by
      cases hsg : p.segments.getLast? with
      | none =>
        exfalso
        have hs : p.segments.getLast?.isSome := List.getLast?_isSome.mpr hne
        rw [hsg] at hs
        simp at hs
      | some x => exact ⟨x, rfl⟩
    obtain ⟨p1, seg2, happ, hsegs, hstart, hoff, hts, hcur1, hflag1, hconf⟩ :=
      append_messages_shape p b last hlast
    have hstep : appendBatches p (b :: bs) = appendBatches p1 bs := by
      show (match p.append_messages b with
        | Except.error e => Except.error e
        | Except.ok q => appendBatches q bs) = appendBatches p1 bs
      rw [happ]
    rw [hstep] at h
    have hroll : segsOffsets (rollFront p last) ++
        (rollSeg p last).store.map Message.offset = segsOffsets p.segments := by
      cases hcl : last.is_closed with
      | true =>
        have h1 : rollFront p last = p.segments := by
          unfold rollFront
          simp [hcl]
        have h2 : (rollSeg p last).store = [] := by
          unfold rollSeg
          simp [hcl, Segment.create]
        rw [h1, h2]
        simp
      | false =>
        have h1 : rollFront p last = p.segments.dropLast := by
          unfold rollFront
          simp [hcl]
        have h2 : rollSeg p last = last := by
          unfold rollSeg
          simp [hcl]
        rw [h1, h2]
        have h3 := segments_decomp p.segments last hlast
        calc segsOffsets p.segments.dropLast ++ last.store.map Message.offset
            = segsOffsets p.segments.dropLast ++ segsOffsets [last] := by
              simp [segsOffsets]
          _ = segsOffsets (p.segments.dropLast ++ [last]) := (segsOffsets_append _ _).symm
          _ = segsOffsets p.segments := by rw [h3]
    have hlog1 : p1.logOffsets = List.range' 0 (n + b.length) := by
      unfold Partition.logOffsets
      rw [hsegs, segsOffsets_append]
      have h4 : segsOffsets [seg2] = seg2.store.map Message.offset := by
        simp [segsOffsets]
      rw [h4, hoff, hcur, hflag, assignedOffsets_inv n b.length, ← List.append_assoc, hroll]
      have h5 : segsOffsets p.segments = List.range' 0 n := hlog
      rw [h5, range'_append_simple]
    have hcur1' : p1.current_offset = (n + b.length) - 1 := by
      rw [hcur1, hcur, hflag]
      cases n with
      | zero => simp
      | succ m => simp
    have hflag1' : p1.should_increment_offset = decide (n + b.length ≠ 0) := by
      rw [hflag1, hflag]
      cases b with
      | nil => simp
      | cons x xs =>
        simp [List.isEmpty]
    have hne1 : p1.segments ≠ [] := by
      rw [hsegs]
      simp
    have hres := ih p1 (n + b.length) hlog1 hcur1' hflag1' hne1 p' h
    rw [hres]
    have h6 : n + b.length + (bs.map List.length).sum =
        n + ((b :: bs).map List.length).sum := by
      simp
      omega
    rw [h6]

/-- C1: every append history on a freshly created partition assigns exactly
the offsets `0, 1, …, N-1` in submission order, the first message landing at
offset 0 via the `should_increment_offset` flag. -/
theorem offsets_dense_from_fresh (id : Nat) (cfg : Config)
    (batches : List (List (Message × Nat))) (p' : Partition)
    (h : appendBatches (Partition.create id cfg) batches = .ok p') :
    p'.logOffsets = List.range' 0 (batches.map List.length).sum := by
  have hres := appendBatches_offsets batches (Partition.create id cfg) 0 (by rfl) (by rfl)
    (by rfl) (by simp [Partition.create]) p' h
  simpa using hres

/-- Witness for C1: the two-batch history `batchesEx` (three messages) yields
log offsets `[0, 1, 2]`. -/
theorem offsets_dense_from_fresh_witness :
    Partition.logOffsets pC1res = List.range' 0 3 :=
  offsets_dense_from_fresh 1 cfgEx batchesEx pC1res rfl
